import Mathlib

/-!
# Lominus file helpers and preference labels

A shallow embedding of `internal/file/file.go` and of the sync-frequency
tables of `internal/ui/ui.go`.

Go strings are byte sequences, so a string is a list of byte values.  The
standard-library routines the helpers call (`strings.Replace`,
`strings.TrimSpace`, `url.QueryUnescape`, `filepath.Split`, `filepath.Join`,
`fmt.Sprintf`) are written out following the Go sources (Unix flavour of
`path/filepath`).  The operating system is a state that the `os` calls read
and change: a directory tree of regular files, directories and symbolic
links, in which a path is looked up element by element.
-/

namespace Lominus

/-- A Go string: its bytes, in order. -/
abbrev GoString := List Nat

/-- UTF-8 encoding of one code point, as the Go compiler stores string literals. -/
def encodeRune (c : Nat) : List Nat :=
  if c < 0x80 then [c]
  else if c < 0x800 then [0xC0 + c / 64, 0x80 + c % 64]
  else if c < 0x10000 then [0xE0 + c / 4096, 0x80 + c / 64 % 64, 0x80 + c % 64]
  else [0xF0 + c / 262144, 0x80 + c / 4096 % 64, 0x80 + c / 64 % 64, 0x80 + c % 64]

/-- The Go string written as the literal `s`. -/
def lit (s : String) : GoString :=
  s.toList.flatMap (fun c => encodeRune c.toNat)

/-! ## strings.Replace -/

/-- Go `strings.Replace(s, old, new, -1)` for a non-empty `old`: every
non-overlapping occurrence of `old`, scanning from the left, is replaced by
`new`.  The counter is the number of bytes of a matched occurrence still to
be skipped. -/
def replaceFrom (old new : GoString) : GoString → Nat → GoString
  | [], _ => []
  | _ :: rest, skip + 1 => replaceFrom old new rest skip
  | b :: rest, 0 =>
    if old.isPrefixOf (b :: rest) then new ++ replaceFrom old new rest (old.length - 1)
    else b :: replaceFrom old new rest 0

/-- Go `strings.Replace(s, old, new, -1)`, `old` non-empty. -/
def Replace (s old new : GoString) : GoString :=
  replaceFrom old new s 0

/-! ## unicode/utf8 -/

/-- Go `utf8.RuneError`. -/
def RuneError : Nat := 0xFFFD

/-- Go `utf8.RuneSelf`. -/
def RuneSelf : Nat := 0x80

/-- The table `utf8.first` for a leading byte at or above `RuneSelf`: the
length of the sequence the byte starts and the accepted range of the second
byte; `none` is the table entry `xx` (an invalid leading byte). -/
def firstInfo (b : Nat) : Option (Nat × Nat × Nat) :=
  if 0xC2 ≤ b ∧ b ≤ 0xDF then some (2, 0x80, 0xBF)
  else if b = 0xE0 then some (3, 0xA0, 0xBF)
  else if 0xE1 ≤ b ∧ b ≤ 0xEC then some (3, 0x80, 0xBF)
  else if b = 0xED then some (3, 0x80, 0x9F)
  else if 0xEE ≤ b ∧ b ≤ 0xEF then some (3, 0x80, 0xBF)
  else if b = 0xF0 then some (4, 0x90, 0xBF)
  else if 0xF1 ≤ b ∧ b ≤ 0xF3 then some (4, 0x80, 0xBF)
  else if b = 0xF4 then some (4, 0x80, 0x8F)
  else none

/-- A continuation byte is out of range when it is not in `0x80..0xBF`. -/
def notCont (b : Nat) : Bool := decide (b < 0x80) || decide (0xBF < b)

/-- Go `utf8.DecodeRuneInString`: the first rune of `s` and its width in
bytes.  An invalid encoding yields `(RuneError, 1)`, the empty string
`(RuneError, 0)`.  The masks and shifts of the source are written as
remainders and products. -/
def decodeRune : GoString → Nat × Nat
  | [] => (RuneError, 0)
  | s0 :: t =>
    if s0 < RuneSelf then (s0, 1)
    else
      match firstInfo s0 with
      | none => (RuneError, 1)
      | some (sz, lo, hi) =>
        if t.length + 1 < sz then (RuneError, 1)
        else
          match t with
          | [] => (RuneError, 1)
          | s1 :: t1 =>
            if s1 < lo ∨ hi < s1 then (RuneError, 1)
            else if sz ≤ 2 then (s0 % 32 * 64 + s1 % 64, 2)
            else
              match t1 with
              | [] => (RuneError, 1)
              | s2 :: t2 =>
                if notCont s2 then (RuneError, 1)
                else if sz ≤ 3 then (s0 % 16 * 4096 + s1 % 64 * 64 + s2 % 64, 3)
                else
                  match t2 with
                  | [] => (RuneError, 1)
                  | s3 :: _ =>
                    if notCont s3 then (RuneError, 1)
                    else (s0 % 8 * 262144 + s1 % 64 * 4096 + s2 % 64 * 64 + s3 % 64, 4)

/-- Go `utf8.RuneStart`: the byte is not a continuation byte. -/
def RuneStart (b : Nat) : Bool := decide (b / 64 % 4 ≠ 2)

/-- The backward scan of `utf8.DecodeLastRuneInString` for the start of the
last rune.  The position is kept one above the source's `start` so that it
stays a natural number; the scan stops at the first rune-start byte or once
`start` falls below `lim`. -/
def scanBack (s : GoString) (lim : Nat) : Nat → Nat → Nat
  | 0, p => p
  | fuel + 1, p =>
    if lim < p then
      if RuneStart (s.getD (p - 1) 0) then p else scanBack s lim fuel (p - 1)
    else p

/-- Go `utf8.DecodeLastRuneInString`: the last rune of `s` and its width. -/
def decodeLastRune (s : GoString) : Nat × Nat :=
  let e := s.length
  if e = 0 then (RuneError, 0)
  else
    let r := s.getD (e - 1) 0
    if r < RuneSelf then (r, 1)
    else
      let lim := e - 4
      let start := scanBack s lim 4 (e - 1) - 1
      let d := decodeRune (s.drop start)
      if start + d.2 ≠ e then (RuneError, 1) else d

/-! ## unicode.IsSpace and strings.TrimSpace -/

/-- Go `unicode.IsSpace`: the Latin-1 cases, then the `White_Space` table. -/
def IsSpace (r : Nat) : Bool :=
  if r ≤ 0xFF then
    decide (r = 9 ∨ r = 10 ∨ r = 11 ∨ r = 12 ∨ r = 13 ∨ r = 32 ∨ r = 0x85 ∨ r = 0xA0)
  else
    decide (r = 0x1680 ∨ (0x2000 ≤ r ∧ r ≤ 0x200A) ∨ r = 0x2028 ∨ r = 0x2029 ∨
      r = 0x202F ∨ r = 0x205F ∨ r = 0x3000)

/-- The table `asciiSpace` of package `strings`. -/
def asciiSpace (c : Nat) : Bool :=
  decide (c = 9 ∨ c = 10 ∨ c = 11 ∨ c = 12 ∨ c = 13 ∨ c = 32)

/-- Go `strings.indexFunc(s, f, truth)` with the offset of `s` in the
original string: the index of the first rune whose test equals `truth`; `none`
is the source's `-1`.  Each turn takes one rune, so the length of `s` plus
one is enough fuel. -/
def indexFuncAux (f : Nat → Bool) (truth : Bool) : Nat → GoString → Nat → Option Nat
  | 0, _, _ => none
  | fuel + 1, s, i =>
    match s with
    | [] => none
    | b :: t =>
      let d := decodeRune (b :: t)
      if f d.1 = truth then some i
      else indexFuncAux f truth fuel ((b :: t).drop d.2) (i + d.2)

/-- Go `strings.indexFunc`. -/
def indexFunc (s : GoString) (f : Nat → Bool) (truth : Bool) : Option Nat :=
  indexFuncAux f truth (s.length + 1) s 0

/-- Go `strings.lastIndexFunc(s, f, truth)`: the loop `for i := len(s); i > 0;`
that steps backwards one rune at a time. -/
def lastIndexFuncAux (s : GoString) (f : Nat → Bool) (truth : Bool) : Nat → Nat → Option Nat
  | 0, _ => none
  | fuel + 1, i =>
    if i = 0 then none
    else
      let d := decodeLastRune (s.take i)
      if f d.1 = truth then some (i - d.2)
      else lastIndexFuncAux s f truth fuel (i - d.2)

/-- Go `strings.lastIndexFunc`. -/
def lastIndexFunc (s : GoString) (f : Nat → Bool) (truth : Bool) : Option Nat :=
  lastIndexFuncAux s f truth (s.length + 1) s.length

/-- Go `strings.TrimLeftFunc`. -/
def TrimLeftFunc (s : GoString) (f : Nat → Bool) : GoString :=
  match indexFunc s f false with
  | none => []
  | some i => s.drop i

/-- Go `strings.TrimRightFunc`. -/
def TrimRightFunc (s : GoString) (f : Nat → Bool) : GoString :=
  match lastIndexFunc s f false with
  | none => s.take 0
  | some i =>
    if RuneSelf ≤ s.getD i 0 then s.take (i + (decodeRune (s.drop i)).2)
    else s.take (i + 1)

/-- Go `strings.TrimFunc`. -/
def TrimFunc (s : GoString) (f : Nat → Bool) : GoString :=
  TrimRightFunc (TrimLeftFunc s f) f

/-- The second loop of `strings.TrimSpace`, run on the reversed remainder:
ASCII spaces are dropped from the end; a non-ASCII byte hands over to
`TrimRightFunc`. -/
def trimSpaceStop : GoString → GoString
  | [] => []
  | c :: rest =>
    if RuneSelf ≤ c then TrimRightFunc (c :: rest).reverse IsSpace
    else if asciiSpace c then trimSpaceStop rest
    else (c :: rest).reverse

/-- Go `strings.TrimSpace`: the ASCII fast path from the front, falling back
to `TrimFunc` on the remainder at the first non-ASCII byte, then the same
from the back. -/
def TrimSpace : GoString → GoString
  | [] => []
  | c :: rest =>
    if RuneSelf ≤ c then TrimFunc (c :: rest) IsSpace
    else if asciiSpace c then TrimSpace rest
    else trimSpaceStop (c :: rest).reverse

/-- The string is empty or its first rune, decoded forwards, is not a space. -/
def headOK (t : GoString) : Prop := t = [] ∨ IsSpace (decodeRune t).1 = false

/-- The string is empty or its last rune, decoded backwards, is not a space. -/
def lastOK (t : GoString) : Prop := t = [] ∨ IsSpace (decodeLastRune t).1 = false

/-! ## url.QueryUnescape -/

/-- Go `url.ishex`. -/
def ishex (c : Nat) : Bool :=
  decide (48 ≤ c ∧ c ≤ 57) || decide (97 ≤ c ∧ c ≤ 102) || decide (65 ≤ c ∧ c ≤ 70)

/-- Go `url.unhex`. -/
def unhex (c : Nat) : Nat :=
  if 48 ≤ c ∧ c ≤ 57 then c - 48
  else if 97 ≤ c ∧ c ≤ 102 then c - 97 + 10
  else if 65 ≤ c ∧ c ≤ 70 then c - 65 + 10
  else 0

/-- Errors returned by the modelled library calls. -/
inductive GoError where
  | escapeError (s : GoString)
  | pathError (op : String) (path : GoString) (errno : String)
  | linkError (op : String) (old new : GoString) (errno : String)
  | codecError (msg : String)
  deriving DecidableEq, Repr

/-- First loop of Go `url.unescape` in mode `encodeQueryComponent`: checks
that every percent sign is followed by two hex digits.  Returns the offending
text (at most three bytes) of the first malformed escape, if any. -/
def unescapeCheck : GoString → Option GoString
  | [] => none
  | c :: rest =>
    if c = 37 then
      match rest with
      | a :: b :: rest2 =>
        if ishex a && ishex b then unescapeCheck rest2
        else some ((c :: rest).take 3)
      | _ => some ((c :: rest).take 3)
    else unescapeCheck rest

/-- Second loop of Go `url.unescape` in mode `encodeQueryComponent`: each
escape becomes its byte, each plus sign a space. -/
def unescapeBuild : GoString → GoString
  | [] => []
  | c :: rest =>
    if c = 37 then
      match rest with
      | a :: b :: rest2 => (unhex a * 16 + unhex b) :: unescapeBuild rest2
      | _ => []
    else if c = 43 then 32 :: unescapeBuild rest
    else c :: unescapeBuild rest

/-- Go `url.QueryUnescape`: on a malformed escape the result is the empty
string together with an `EscapeError`. -/
def QueryUnescape (s : GoString) : GoString × Option GoError :=
  match unescapeCheck s with
  | some bad => ([], some (GoError.escapeError bad))
  | none =>
    if s.count 37 = 0 ∧ ¬ (43 ∈ s) then (s, none)
    else (unescapeBuild s, none)

/-! ## CleanseFolderFileName -/

/-- The nine `strings.Replace` calls of `CleanseFolderFileName`. -/
def replaceProhibited (name : GoString) : GoString :=
  let name := Replace name (lit ("/")) (lit (" "))
  let name := Replace name (lit ("\\")) (lit (" "))
  let name := Replace name (lit ("<")) (lit (" "))
  let name := Replace name (lit (">")) (lit (" "))
  let name := Replace name (lit (":")) (lit (" "))
  let name := Replace name (lit ("\"")) (lit (" "))
  let name := Replace name (lit ("|")) (lit (" "))
  let name := Replace name (lit ("?")) (lit (" "))
  let name := Replace name (lit ("*")) (lit (" "))
  name

/-- Go `CleanseFolderFileName`: replace, trim, then `name, _ = url.QueryUnescape(name)`. -/
def CleanseFolderFileName (name : GoString) : GoString :=
  let name := replaceProhibited name
  let name := TrimSpace name
  let name := (QueryUnescape name).1
  name

/-! ## fmt.Sprintf, path/filepath -/

/-- Decimal digits of `n`, most significant first, in front of `acc`; the
fuel bounds the number of digits. -/
def digitsAux : Nat → Nat → List Nat → List Nat
  | 0, _, acc => acc
  | fuel + 1, n, acc =>
    if n < 10 then (48 + n) :: acc
    else digitsAux fuel (n / 10) ((48 + n % 10) :: acc)

/-- The verb `%d` of `fmt.Sprintf` on a non-negative integer. -/
def formatD (n : Nat) : GoString :=
  digitsAux (n + 1) n []

/-- Go `fmt.Sprintf("[v%d]%s", x, fileName)`. -/
def sprintfVersion (x : Nat) (fileName : GoString) : GoString :=
  lit ("[v") ++ formatD x ++ lit ("]") ++ fileName

/-- Go `filepath.Split`: the path up to and including the last separator,
and what follows it. -/
def Split (path : GoString) : GoString × GoString :=
  ((path.reverse.dropWhile (fun c => c ≠ 47)).reverse,
   (path.reverse.takeWhile (fun c => c ≠ 47)).reverse)

/-- The elements of a path between separators (empty elements included). -/
def splitSep : GoString → List GoString
  | [] => [[]]
  | c :: rest =>
    if c = 47 then [] :: splitSep rest
    else
      match splitSep rest with
      | [] => [[c]]
      | h :: t => (c :: h) :: t

/-- The backtracking loop of `filepath.Clean` at a `..` element, entered
with `w` already decremented once: `w` moves down while it is above `dotdot`
and the byte at `w` is not a separator. -/
def backScan (out : GoString) (dotdot : Nat) : Nat → Nat
  | 0 => 0
  | w + 1 => if dotdot < w + 1 ∧ out.getD (w + 1) 0 ≠ 47 then backScan out dotdot w else w + 1

/-- One turn of the loop of `filepath.Clean` on the element `e`; the state is
the output buffer and the index `dotdot`. -/
def cleanElem (rooted : Bool) (st : GoString × Nat) (e : GoString) : GoString × Nat :=
  if e = [] then st
  else if e = [46] then st
  else if e = [46, 46] then
    if st.2 < st.1.length then (st.1.take (backScan st.1 st.2 (st.1.length - 1)), st.2)
    else if rooted then st
    else
      let out := (if 0 < st.1.length then st.1 ++ [47] else st.1) ++ [46, 46]
      (out, out.length)
  else
    ((if (rooted = true ∧ st.1.length ≠ 1) ∨ (rooted = false ∧ st.1.length ≠ 0)
        then st.1 ++ [47] else st.1) ++ e, st.2)

/-- Go `filepath.Clean` on Unix (no volume name, separator `/`). -/
def Clean (path : GoString) : GoString :=
  match path with
  | [] => [46]
  | c :: rest =>
    let rooted : Bool := decide (c = 47)
    let init : GoString × Nat := if rooted then ([47], 1) else ([], 0)
    let body := if rooted then rest else c :: rest
    let st := (splitSep body).foldl (cleanElem rooted) init
    if st.1 = [] then [46] else st.1

/-- Go `filepath.Join`: the elements from the first non-empty one on are
joined with separators and cleaned; the result is empty when all are empty. -/
def Join (elem : List GoString) : GoString :=
  match elem.dropWhile (fun e => decide (e = [])) with
  | [] => []
  | es => Clean (List.intercalate [47] es)

/-- A name that `filepath.Clean` copies as a real path element: not empty,
not `.`, not `..`, and free of separators. -/
def realElement (n : GoString) : Prop :=
  n ≠ [] ∧ n ≠ [46] ∧ n ≠ [46, 46] ∧ 47 ∉ n

/-- The name `AutoRename` tries for the counter value `x`:
`filepath.Join(directory, "[vx]" + fileName)` for the two halves of `filePath`. -/
def candidate (filePath : GoString) (x : Nat) : GoString :=
  Join [(Split filePath).1, sprintfVersion x (Split filePath).2]

/-! ## The filesystem -/

/-- An entry of the filesystem: a regular file with its content, a directory,
or a symbolic link with the path it points to. -/
inductive Node where
  | file (content : List Nat)
  | dir
  | symlink (target : GoString)
  deriving DecidableEq, Repr

/-- A place in the directory tree: the names on the way down from the root. -/
abbrev Loc := List GoString

/-- A request on which the kernel decides by what the tree does not show
(permission bits, devices and mounts, quotas). -/
inductive Request where
  | search (dir : Loc)
  | openFile (loc : Loc)
  | create (loc : Loc)
  | rename (old new : Loc)
  deriving DecidableEq, Repr

/-- A filesystem state as one process sees it: the entry at each place, the
working directory, and the errno with which the kernel refuses a request (for
`EACCES`, `EXDEV`, `EROFS` and the like), if it does.  The root is a
directory; an entry counts only if the places above it are directories or
links to them, since lookups walk down from the root. -/
structure FS where
  node : Loc → Option Node
  cwd : Loc
  refuse : Request → Option String

/-- The longest name of one path element, in bytes. -/
def NAME_MAX : Nat := 255

/-- A path of this many bytes or more is too long. -/
def PATH_MAX : Nat := 4096

/-- The number of symbolic links one lookup may follow. -/
def MAXSYMLINKS : Nat := 40

/-- The entry at a place; the root is always a directory. -/
def nodeAt (fs : FS) (loc : Loc) : Option Node :=
  if loc = [] then some Node.dir else fs.node loc

/-- Where a path starts: the root for an absolute path, else the working directory. -/
def startOf (cur : Loc) (path : GoString) : Loc :=
  if path.head? = some 47 then [] else cur

/-- The walk of a path lookup over the remaining elements, from the directory
`cur`, with `links` symbolic links still allowed.  Empty elements and `.` are
skipped, `..` goes one place up, a link is replaced by the elements of its
target.  The result is the place of the last element, whose entry may be
missing; everything before it must exist.  With `follow` unset a link in
the last element is not followed.  Each turn takes one unit of fuel; the
amount `resolve` gives is never used up (`resolve_fuel`). -/
def resolveAux (fs : FS) (follow : Bool) : Nat → Nat → Loc → List GoString → Except String Loc
  | 0, _, _, _ => Except.error "ELOOP"
  | _ + 1, _, cur, [] => Except.ok cur
  | fuel + 1, links, cur, c :: rest =>
    if c = [] ∨ c = [46] then resolveAux fs follow fuel links cur rest
    else if c = [46, 46] then resolveAux fs follow fuel links cur.dropLast rest
    else if NAME_MAX < c.length then Except.error "ENAMETOOLONG"
    else
      match fs.refuse (Request.search cur) with
      | some errno => Except.error errno
      | none =>
        match nodeAt fs (cur ++ [c]) with
        | none => if rest = [] then Except.ok (cur ++ [c]) else Except.error "ENOENT"
        | some (Node.file _) =>
          if rest = [] then Except.ok (cur ++ [c]) else Except.error "ENOTDIR"
        | some Node.dir => resolveAux fs follow fuel links (cur ++ [c]) rest
        | some (Node.symlink t) =>
          if rest = [] ∧ follow = false then Except.ok (cur ++ [c])
          else if links = 0 then Except.error "ELOOP"
          else if t = [] then Except.error "ENOENT"
          else if PATH_MAX ≤ t.length then Except.error "ENAMETOOLONG"
          else resolveAux fs follow fuel (links - 1) (startOf cur t) (splitSep t ++ rest)

/-- The lookup of a path: the place it names.  The fuel covers the elements
of the path and of up to `MAXSYMLINKS` link targets. -/
def resolve (fs : FS) (follow : Bool) (path : GoString) : Except String Loc :=
  if path = [] then Except.error "ENOENT"
  else if PATH_MAX ≤ path.length then Except.error "ENAMETOOLONG"
  else resolveAux fs follow ((MAXSYMLINKS + 1) * (PATH_MAX + 1)) MAXSYMLINKS
    (startOf fs.cwd path) (splitSep path)

/-- The entry a path names, or the errno of the failed lookup. -/
def lookup (fs : FS) (follow : Bool) (path : GoString) : Except String Node :=
  match resolve fs follow path with
  | Except.error errno => Except.error errno
  | Except.ok loc =>
    match nodeAt fs loc with
    | some n => Except.ok n
    | none => Except.error "ENOENT"

/-- Go `os.Stat`: the entry at the path, links followed. -/
def Stat (fs : FS) (name : GoString) : Except GoError Node :=
  match lookup fs true name with
  | Except.ok n => Except.ok n
  | Except.error errno => Except.error (GoError.pathError "stat" name errno)

/-- Go `os.Lstat`: the entry at the path, a link in the last element not followed. -/
def Lstat (fs : FS) (name : GoString) : Except GoError Node :=
  match lookup fs false name with
  | Except.ok n => Except.ok n
  | Except.error errno => Except.error (GoError.pathError "lstat" name errno)

/-- Go `Exists`: `os.Stat` returned no error. -/
def Exists (fs : FS) (name : GoString) : Bool :=
  match Stat fs name with
  | Except.ok _ => true
  | Except.error _ => false

/-- The tree after the entry at `old`, with all below it, has moved to `new`. -/
def moveEntry (fs : FS) (old new : Loc) : FS :=
  { node := fun loc =>
      if new <+: loc then fs.node (old ++ loc.drop new.length)
      else if old <+: loc then none
      else fs.node loc
    cwd := if old <+: fs.cwd then new ++ fs.cwd.drop old.length else fs.cwd
    refuse := fs.refuse }

/-- The system call `rename(2)`: its errno, if any, and the filesystem
afterwards.  The entry itself moves, a link is not followed; an entry other
than a directory at the new path is replaced.  A directory moved onto another
directory is answered with `ENOTEMPTY`; `os.Rename` never issues that call. -/
def renameCall (fs : FS) (oldpath newpath : GoString) : Option String × FS :=
  match resolve fs false oldpath with
  | Except.error errno => (some errno, fs)
  | Except.ok old =>
    match nodeAt fs old with
    | none => (some "ENOENT", fs)
    | some src =>
      match resolve fs false newpath with
      | Except.error errno => (some errno, fs)
      | Except.ok new =>
        if old = [] ∨ new = [] then (some "EBUSY", fs)
        else if old = new then (none, fs)
        else if src = Node.dir ∧ old <+: new then (some "EINVAL", fs)
        else
          match src, nodeAt fs new with
          | Node.dir, some (Node.file _) => (some "ENOTDIR", fs)
          | Node.dir, some (Node.symlink _) => (some "ENOTDIR", fs)
          | Node.dir, some Node.dir => (some "ENOTEMPTY", fs)
          | Node.file _, some Node.dir => (some "EISDIR", fs)
          | Node.symlink _, some Node.dir => (some "EISDIR", fs)
          | _, _ =>
            match fs.refuse (Request.rename old new) with
            | some errno => (some errno, fs)
            | none => (none, moveEntry fs old new)

/-- Go `os.SameFile` on the entries two paths name (links in the last element
not followed): the same place in the tree; hard links are left out. -/
def samePlace (fs : FS) (a b : GoString) : Bool :=
  match resolve fs false a, resolve fs false b with
  | Except.ok x, Except.ok y => decide (x = y)
  | _, _ => false

/-- Go `os.Rename` on Unix: a directory at the new path is refused with
`EEXIST` before the system call (unless both paths name the same entry under
different spellings); any errno comes back in a `LinkError`. -/
def Rename (fs : FS) (oldpath newpath : GoString) : Option GoError × FS :=
  let call : Option String × FS :=
    match lookup fs false newpath with
    | Except.ok Node.dir =>
      match lookup fs false oldpath with
      | Except.error errno => (some errno, fs)
      | Except.ok _ =>
        if newpath = oldpath ∨ samePlace fs newpath oldpath = false
        then (some "EEXIST", fs)
        else renameCall fs oldpath newpath
    | _ => renameCall fs oldpath newpath
  match call with
  | (some errno, fs1) => (some (GoError.linkError "rename" oldpath newpath errno), fs1)
  | (none, fs1) => (none, fs1)

/-- The loop of `AutoRename`: `x` counts up from its start until the
candidate name does not exist; the result is `newFileName` at the `break`,
`none` when the fuel ends first.  The counter is a natural number: the Go
`int` stays below `2^63` as long as fewer than `2^63 - 1` names are taken. -/
def autoRenameLoop (fs : FS) (directory fileName : GoString) : Nat → Nat → Option GoString
  | 0, _ => none
  | fuel + 1, x =>
    let newFileName := sprintfVersion x fileName
    if !Exists fs (Join [directory, newFileName]) then some newFileName
    else autoRenameLoop fs directory fileName fuel (x + 1)

/-- Go `AutoRename`: the error of `os.Rename` and the filesystem afterwards;
`none` when the loop did not end within the fuel. -/
def AutoRename (fuel : Nat) (fs : FS) (filePath : GoString) : Option (Option GoError × FS) :=
  let directory := (Split filePath).1
  let fileName := (Split filePath).2
  match autoRenameLoop fs directory fileName fuel 1 with
  | none => none
  | some newFileName => some (Rename fs filePath (Join [directory, newFileName]))

/-- Go `EnsureDir`.  `os.MkdirAll` is a parameter: it returns its error and
the filesystem it leaves. -/
def EnsureDir (MkdirAll : FS → GoString → Option GoError × FS) (fs : FS) (dir : GoString) :
    Option GoError × FS :=
  match Stat fs dir with
  | Except.error _ =>
    match MkdirAll fs dir with
    | (some merr, fs1) => (some merr, fs1)
    | (none, fs1) => (none, fs1)
  | Except.ok _ => (none, fs)

/-! ## Encoding to and decoding from a file -/

/-- The `encoding/gob` calls on values of type `V`: `Encode` gives the bytes
it wrote and its error, `Decode` reads a byte stream into the destination and
gives the destination afterwards and its error. -/
structure Gob (V : Type) where
  Encode : V → List Nat × Option GoError
  Decode : List Nat → V → V × Option GoError

/-- The tree with the regular file `content` at `loc`. -/
def writeFile (fs : FS) (loc : Loc) (content : List Nat) : FS :=
  { node := fun l => if l = loc then some (Node.file content) else fs.node l
    cwd := fs.cwd
    refuse := fs.refuse }

/-- Go `os.Create`: the file at the end of the lookup (links followed) is
created or truncated, and its place is the handle.  The lookup fails with
`ENOENT` when a directory on the way is missing; a directory at the path
gives `EISDIR`. -/
def Create (fs : FS) (name : GoString) : Except GoError (FS × Loc) :=
  match resolve fs true name with
  | Except.error errno => Except.error (GoError.pathError "open" name errno)
  | Except.ok loc =>
    match nodeAt fs loc with
    | some Node.dir => Except.error (GoError.pathError "open" name "EISDIR")
    | some (Node.symlink _) => Except.error (GoError.pathError "open" name "ELOOP")
    | _ =>
      match fs.refuse (Request.create loc) with
      | some errno => Except.error (GoError.pathError "open" name errno)
      | none => Except.ok (writeFile fs loc [], loc)

/-- Go `os.Open`: the entry at the end of the lookup (links followed). -/
def Open (fs : FS) (name : GoString) : Except GoError (Node × Loc) :=
  match resolve fs true name with
  | Except.error errno => Except.error (GoError.pathError "open" name errno)
  | Except.ok loc =>
    match nodeAt fs loc with
    | none => Except.error (GoError.pathError "open" name "ENOENT")
    | some n =>
      match fs.refuse (Request.openFile loc) with
      | some errno => Except.error (GoError.pathError "open" name errno)
      | none => Except.ok (n, loc)

/-- Go `EncodeStructToFile`: its error and the filesystem afterwards. -/
def EncodeStructToFile {V : Type} (gob : Gob V) (fs : FS) (fileName : GoString) (data : V) :
    Option GoError × FS :=
  match Create fs fileName with
  | Except.error err => (some err, fs)
  | Except.ok (fs1, loc) =>
    let w := gob.Encode data
    (w.2, writeFile fs1 loc w.1)

/-- Go `DecodeStructFromFile`: its error, the destination afterwards and the
filesystem afterwards. -/
def DecodeStructFromFile {V : Type} (gob : Gob V) (fs : FS) (fileName : GoString) (data : V) :
    Option GoError × V × FS :=
  match Open fs fileName with
  | Except.error err => (some err, data, fs)
  | Except.ok (Node.file content, _) =>
    let r := gob.Decode content data
    (r.2, r.1, fs)
  | Except.ok (_, _) => (some (GoError.pathError "read" fileName "EISDIR"), data, fs)

/-- A filesystem holding one regular file, `data`, in the root, which is the
working directory. -/
def fsDataFile : FS where
  node := fun loc => if loc = [lit ("data")] then some (Node.file [1, 2, 3]) else none
  cwd := []
  refuse := fun _ => none

/-- A filesystem whose directory `docs` holds the file `report.txt` and a
symbolic link `[v1]report.txt` to the missing `gone.txt`. -/
def fsDangling : FS where
  node := fun loc =>
    if loc = [lit ("docs")] then some Node.dir
    else if loc = [lit ("docs"), lit ("report.txt")] then some (Node.file [7])
    else if loc = [lit ("docs"), lit ("[v1]report.txt")] then
      some (Node.symlink (lit ("gone.txt")))
    else none
  cwd := []
  refuse := fun _ => none


/-- A stand-in for `encoding/gob` on natural numbers: one byte per value. -/
def gobNat : Gob Nat where
  Encode := fun v => ([v], none)
  Decode := fun bs d =>
    match bs with
    | [b] => (b, none)
    | _ => (d, some (GoError.codecError "unexpected EOF"))

/-! ## Sync frequency labels (`internal/ui/ui.go`) -/

/-- Label of the disabled sync. -/
def FREQUENCY_DISABLED : GoString := lit ("Disabled")
/-- Label of the hourly sync. -/
def FREQUENCY_ONE_HOUR : GoString := lit ("1 hour")
/-- Label of the two-hourly sync. -/
def FREQUENCY_TWO_HOUR : GoString := lit ("2 hour")
/-- Label of the four-hourly sync. -/
def FREQUENCY_FOUR_HOUR : GoString := lit ("4 hour")
/-- Label of the six-hourly sync. -/
def FREQUENCY_SIX_HOUR : GoString := lit ("6 hour")
/-- Label of the twelve-hourly sync. -/
def FREQUENCY_TWELVE_HOUR : GoString := lit ("12 hour")

/-- The Go map `frequencyMap`, as its key/value pairs. -/
def frequencyMap : List (Int × GoString) :=
  [(1, FREQUENCY_ONE_HOUR), (2, FREQUENCY_TWO_HOUR), (4, FREQUENCY_FOUR_HOUR),
   (6, FREQUENCY_SIX_HOUR), (12, FREQUENCY_TWELVE_HOUR), (-1, FREQUENCY_DISABLED)]

/-- Indexing a Go `map[int]string`: the value of the key, the empty string
when the key is absent. -/
def mapIndex (m : List (Int × GoString)) (k : Int) : GoString :=
  (m.lookup k).getD []

/-- The options offered by `frequencySelect`. -/
def frequencyOptions : List GoString :=
  [FREQUENCY_DISABLED, FREQUENCY_ONE_HOUR, FREQUENCY_TWO_HOUR, FREQUENCY_FOUR_HOUR,
   FREQUENCY_SIX_HOUR, FREQUENCY_TWELVE_HOUR]

/-- The value the callback of `frequencySelect` assigns to
`preferences.Frequency` for the selected label `s` (the `switch`). -/
def frequencySelectCallback (s : GoString) : Int :=
  if s = FREQUENCY_DISABLED then -1
  else if s = FREQUENCY_ONE_HOUR then 1
  else if s = FREQUENCY_TWO_HOUR then 2
  else if s = FREQUENCY_FOUR_HOUR then 4
  else if s = FREQUENCY_SIX_HOUR then 6
  else if s = FREQUENCY_TWELVE_HOUR then 12
  else 1

/-- The nine characters `CleanseFolderFileName` replaces: `/ \ < > : " | ? *`. -/
def prohibited : List Nat := [47, 92, 60, 62, 58, 34, 124, 63, 42]

/-- A prohibited character becomes a space, any other byte stays. -/
def spaceOut (c : Nat) : Nat := if c ∈ prohibited then 32 else c

/-- A plus sign becomes a space, any other byte stays. -/
def plusToSpace (c : Nat) : Nat := if c = 43 then 32 else c

/-! ## Theorems -/

/-! ### Decimal formatting and path joining -/

theorem digitsAux_fold (fuel : Nat) : ∀ (n : Nat) (acc : List Nat), n < fuel →
    (digitsAux fuel n acc).foldl (fun a d => a * 10 + (d - 48)) 0 =
      acc.foldl (fun a d => a * 10 + (d - 48)) n := by
  induction fuel with
  | zero => intro n acc h; omega
  | succ fuel ih =>
    intro n acc h
    unfold digitsAux
    by_cases hn : n < 10
    · simp [hn]
    · simp only [hn, if_false]
      rw [ih (n / 10) _ (by omega)]
      simp only [List.foldl_cons]
      congr 1
      omega

theorem formatD_injective (a b : Nat) (h : formatD a = formatD b) : a = b := by
  have ha := digitsAux_fold (a + 1) a [] (by omega)
  have hb := digitsAux_fold (b + 1) b [] (by omega)
  simp only [List.foldl_nil] at ha hb
  unfold formatD at h
  rw [← ha, ← hb, h]

theorem digitsAux_mem (fuel : Nat) : ∀ (n : Nat) (acc : List Nat) (d : Nat),
    d ∈ digitsAux fuel n acc → d ∈ acc ∨ (48 ≤ d ∧ d ≤ 57) := by
  induction fuel with
  | zero => intro n acc d h; exact Or.inl h
  | succ fuel ih =>
    intro n acc d h
    unfold digitsAux at h
    by_cases hn : n < 10
    · simp only [hn, if_true, List.mem_cons] at h
      rcases h with h | h
      · right; omega
      · left; exact h
    · simp only [hn, if_false] at h
      rcases ih _ _ _ h with h | h
      · rcases List.mem_cons.mp h with h | h
        · right; omega
        · left; exact h
      · right; exact h

theorem sprintfVersion_eq (x : Nat) (fileName : GoString) :
    sprintfVersion x fileName = 91 :: 118 :: (formatD x ++ 93 :: fileName) := by
  have h1 : lit ("[v") = [91, 118] := by decide
  have h2 : lit ("]") = [93] := by decide
  simp [sprintfVersion, h1, h2]

theorem sprintfVersion_injective (fileName : GoString) (a b : Nat)
    (h : sprintfVersion a fileName = sprintfVersion b fileName) : a = b := by
  rw [sprintfVersion_eq, sprintfVersion_eq] at h
  simp only [List.cons.injEq, true_and] at h
  exact formatD_injective a b (List.append_cancel_right h)

theorem sprintfVersion_no_sep (x : Nat) (fileName : GoString) (h : 47 ∉ fileName) :
    47 ∉ sprintfVersion x fileName := by
  rw [sprintfVersion_eq]
  intro hm
  simp only [List.mem_cons, List.mem_append] at hm
  rcases hm with hm | hm | hm | hm | hm
  · omega
  · omega
  · rcases digitsAux_mem _ _ _ _ hm with h0 | h0
    · simp at h0
    · omega
  · omega
  · exact h hm

theorem Split_snd_no_sep (path : GoString) : 47 ∉ (Split path).2 := by
  intro h
  simp only [Split, List.mem_reverse] at h
  have := List.mem_takeWhile_imp h
  simp at this

theorem Split_append (path : GoString) : (Split path).1 ++ (Split path).2 = path := by
  simp only [Split]
  rw [← List.reverse_append, List.takeWhile_append_dropWhile, List.reverse_reverse]

theorem splitSep_ne_nil (s : GoString) : splitSep s ≠ [] := by
  cases s with
  | nil => simp [splitSep]
  | cons c rest =>
    unfold splitSep
    by_cases hc : c = 47
    · simp [hc]
    · simp only [hc, if_false]
      split <;> simp

theorem splitSep_no_sep (n : GoString) (h : 47 ∉ n) : splitSep n = [n] := by
  induction n with
  | nil => simp [splitSep]
  | cons c rest ih =>
    have hc : c ≠ 47 := fun e => h (by simp [e])
    have hr : 47 ∉ rest := fun e => h (List.mem_cons_of_mem _ e)
    unfold splitSep
    simp [hc, ih hr]

theorem splitSep_append (a n : GoString) (h : 47 ∉ n) :
    splitSep (a ++ 47 :: n) = splitSep a ++ [n] := by
  induction a with
  | nil => simp [splitSep, splitSep_no_sep n h]
  | cons c a ih =>
    by_cases hc : c = 47
    · simp [splitSep, hc, ← ih]
    · have hne := splitSep_ne_nil a
      rw [List.cons_append]
      unfold splitSep
      simp only [hc, if_false]
      rw [ih]
      cases hs : splitSep a with
      | nil => exact absurd hs hne
      | cons h t => simp

theorem cleanElem_real (rooted : Bool) (st : GoString × Nat) (n : GoString)
    (hn : realElement n) :
    cleanElem rooted st n =
      ((if (rooted = true ∧ st.1.length ≠ 1) ∨ (rooted = false ∧ st.1.length ≠ 0)
          then st.1 ++ [47] else st.1) ++ n, st.2) := by
  obtain ⟨h0, h1, h2, _⟩ := hn
  simp only [cleanElem, h0, h1, h2, if_false]

theorem Join_pair (d : Nat) (ds n : GoString) :
    Join [d :: ds, n] = Clean (d :: (ds ++ 47 :: n)) := by
  simp [Join, List.dropWhile, List.intercalate]

theorem Join_real (directory : GoString) :
    ∃ pre : GoString, ∀ n : GoString, realElement n → Join [directory, n] = pre ++ n := by
  cases directory with
  | nil =>
    refine ⟨[], ?_⟩
    intro n hn
    obtain ⟨h0, h1, h2, hs⟩ := hn
    cases n with
    | nil => exact absurd rfl h0
    | cons c rest =>
      have hc : c ≠ 47 := fun e => hs (by simp [e])
      have hsp := splitSep_no_sep (c :: rest) hs
      simp [Join, List.intercalate, Clean, hc, hsp, cleanElem, h1, h2]
  | cons d ds =>
    by_cases hd : d = 47
    · subst hd
      refine ⟨(if (true = true ∧ ((splitSep ds).foldl (cleanElem true) ([47], 1)).1.length ≠ 1) ∨
            (true = false ∧ ((splitSep ds).foldl (cleanElem true) ([47], 1)).1.length ≠ 0)
        then ((splitSep ds).foldl (cleanElem true) ([47], 1)).1 ++ [47]
        else ((splitSep ds).foldl (cleanElem true) ([47], 1)).1), ?_⟩
      intro n hn
      rw [Join_pair]
      simp only [Clean, decide_True, if_true]
      rw [splitSep_append ds n hn.2.2.2, List.foldl_append]
      simp only [List.foldl_cons, List.foldl_nil]
      rw [cleanElem_real _ _ _ hn]
      simp [hn.1]
    · refine ⟨(if (false = true ∧ ((splitSep (d :: ds)).foldl (cleanElem false) ([], 0)).1.length ≠ 1) ∨
            (false = false ∧ ((splitSep (d :: ds)).foldl (cleanElem false) ([], 0)).1.length ≠ 0)
        then ((splitSep (d :: ds)).foldl (cleanElem false) ([], 0)).1 ++ [47]
        else ((splitSep (d :: ds)).foldl (cleanElem false) ([], 0)).1), ?_⟩
      intro n hn
      have hsp := splitSep_append (d :: ds) n hn.2.2.2
      rw [List.cons_append] at hsp
      rw [Join_pair]
      simp only [Clean, hd, decide_False, Bool.false_eq_true, if_false]
      rw [hsp, List.foldl_append]
      simp only [List.foldl_cons, List.foldl_nil]
      rw [cleanElem_real _ _ _ hn]
      simp [hn.1]

theorem sprintfVersion_real (x : Nat) (fileName : GoString) (h : 47 ∉ fileName) :
    realElement (sprintfVersion x fileName) := by
  refine ⟨?_, ?_, ?_, sprintfVersion_no_sep x fileName h⟩ <;>
    rw [sprintfVersion_eq] <;> simp

theorem candidate_injective (filePath : GoString) (a b : Nat)
    (h : Join [(Split filePath).1, sprintfVersion a (Split filePath).2] =
         Join [(Split filePath).1, sprintfVersion b (Split filePath).2]) : a = b := by
  obtain ⟨pre, hpre⟩ := Join_real (Split filePath).1
  have hs := Split_snd_no_sep filePath
  rw [hpre _ (sprintfVersion_real a _ hs), hpre _ (sprintfVersion_real b _ hs)] at h
  exact sprintfVersion_injective _ a b (List.append_cancel_left h)

theorem autoRenameLoop_finds (fs : FS) (directory fileName : GoString) (N : Nat)
    (hfree : Exists fs (Join [directory, sprintfVersion N fileName]) = false) :
    ∀ (fuel x : Nat), x ≤ N → N < x + fuel →
      (∀ m, x ≤ m → m < N → Exists fs (Join [directory, sprintfVersion m fileName]) = true) →
      autoRenameLoop fs directory fileName fuel x = some (sprintfVersion N fileName) := by
  intro fuel
  induction fuel with
  | zero => intro x h1 h2; omega
  | succ fuel ih =>
    intro x h1 h2 hocc
    unfold autoRenameLoop
    by_cases hx : x = N
    · subst hx
      simp [hfree]
    · have hlt : x < N := by omega
      simp only [hocc x (le_refl x) hlt, Bool.not_true, Bool.false_eq_true, if_false]
      exact ih (x + 1) (by omega) (by omega) (fun m hm1 hm2 => hocc m (by omega) hm2)


/-! ### Replacement, unescaping and the extent of trimming -/

theorem replaceFrom_single (a b : Nat) (s : GoString) :
    replaceFrom [a] [b] s 0 = s.map (fun c => if c = a then b else c) := by
  induction s with
  | nil => simp [replaceFrom]
  | cons c rest ih =>
    unfold replaceFrom
    by_cases hc : c = a
    · subst hc
      simp [List.isPrefixOf, ih]
    · have hc2 : ¬ a = c := fun e => hc e.symm
      simp [List.isPrefixOf, ih, hc, hc2]

theorem replaceProhibited_eq_map (name : GoString) :
    replaceProhibited name = name.map spaceOut := by
  have h1 : lit ("/") = [47] := by decide
  have h2 : lit ("\\") = [92] := by decide
  have h3 : lit ("<") = [60] := by decide
  have h4 : lit (">") = [62] := by decide
  have h5 : lit (":") = [58] := by decide
  have h6 : lit ("\"") = [34] := by decide
  have h7 : lit ("|") = [124] := by decide
  have h8 : lit ("?") = [63] := by decide
  have h9 : lit ("*") = [42] := by decide
  have h0 : lit (" ") = [32] := by decide
  unfold replaceProhibited Replace
  rw [h0, h1, h2, h3, h4, h5, h6, h7, h8, h9]
  simp only [replaceFrom_single, List.map_map]
  apply List.map_congr_left
  intro c _
  simp only [Function.comp]
  by_cases h1 : c = 47
  · subst h1; decide
  by_cases h2 : c = 92
  · subst h2; decide
  by_cases h3 : c = 60
  · subst h3; decide
  by_cases h4 : c = 62
  · subst h4; decide
  by_cases h5 : c = 58
  · subst h5; decide
  by_cases h6 : c = 34
  · subst h6; decide
  by_cases h7 : c = 124
  · subst h7; decide
  by_cases h8 : c = 63
  · subst h8; decide
  by_cases h9 : c = 42
  · subst h9; decide
  simp [spaceOut, prohibited, h1, h2, h3, h4, h5, h6, h7, h8, h9]

theorem unescapeCheck_no_percent (s : GoString) (h : 37 ∉ s) : unescapeCheck s = none := by
  induction s with
  | nil => simp [unescapeCheck]
  | cons c rest ih =>
    have hc : c ≠ 37 := fun e => h (by simp [e])
    have hr : 37 ∉ rest := fun e => h (List.mem_cons_of_mem _ e)
    unfold unescapeCheck
    simp [hc, ih hr]

theorem unescapeBuild_no_percent (s : GoString) (h : 37 ∉ s) :
    unescapeBuild s = s.map plusToSpace := by
  induction s with
  | nil => simp [unescapeBuild]
  | cons c rest ih =>
    have hc : c ≠ 37 := fun e => h (by simp [e])
    have hr : 37 ∉ rest := fun e => h (List.mem_cons_of_mem _ e)
    unfold unescapeBuild
    by_cases hp : c = 43
    · simp [hc, hp, ih hr, plusToSpace]
    · simp [hc, hp, ih hr, plusToSpace]

theorem map_plusToSpace_of_no_plus (s : GoString) (h : 43 ∉ s) : s.map plusToSpace = s := by
  induction s with
  | nil => rfl
  | cons c rest ih =>
    have hc : c ≠ 43 := fun e => h (by simp [e])
    have hr : 43 ∉ rest := fun e => h (List.mem_cons_of_mem _ e)
    simp [plusToSpace, hc, ih hr]

theorem QueryUnescape_no_percent (s : GoString) (h : 37 ∉ s) :
    QueryUnescape s = (s.map plusToSpace, none) := by
  unfold QueryUnescape
  rw [unescapeCheck_no_percent s h]
  by_cases hp : 43 ∈ s
  · simp [hp, unescapeBuild_no_percent s h]
  · simp [hp, List.count_eq_zero_of_not_mem h, map_plusToSpace_of_no_plus s hp]

theorem TrimRightFunc_initial (s : GoString) (f : Nat → Bool) : TrimRightFunc s f <+: s := by
  unfold TrimRightFunc
  split
  · exact List.take_prefix _ _
  · split <;> exact List.take_prefix _ _

theorem TrimLeftFunc_suffix (s : GoString) (f : Nat → Bool) : TrimLeftFunc s f <:+ s := by
  unfold TrimLeftFunc
  split
  · exact List.nil_suffix
  · exact List.drop_suffix _ _

theorem TrimFunc_within (s : GoString) (f : Nat → Bool) : TrimFunc s f <:+: s :=
  List.IsInfix.trans (TrimRightFunc_initial _ f).isInfix (TrimLeftFunc_suffix s f).isInfix

theorem trimSpaceStop_initial (r : GoString) : trimSpaceStop r <+: r.reverse := by
  induction r with
  | nil => simp [trimSpaceStop]
  | cons c rest ih =>
    unfold trimSpaceStop
    split_ifs
    · exact TrimRightFunc_initial _ _
    · exact ih.trans (by simp)
    · exact List.prefix_refl _

theorem TrimSpace_within (s : GoString) : TrimSpace s <:+: s := by
  induction s with
  | nil => simp [TrimSpace]
  | cons c rest ih =>
    unfold TrimSpace
    split_ifs
    · exact TrimFunc_within _ _
    · exact ih.trans (List.suffix_cons c rest).isInfix
    · have := trimSpaceStop_initial (c :: rest).reverse
      rw [List.reverse_reverse] at this
      exact this.isInfix

theorem mem_of_mem_TrimSpace (s : GoString) (x : Nat) (h : x ∈ TrimSpace s) : x ∈ s :=
  (TrimSpace_within s).subset h

/-! ### UTF-8 decoding and the idempotence of trimming -/

theorem IsSpace_RuneError : IsSpace RuneError = false := by decide

theorem IsSpace_ascii (c : Nat) (h : c < 0x80) : IsSpace c = asciiSpace c := by
  unfold IsSpace asciiSpace
  have h1 : c ≤ 0xFF := by omega
  have h2 : c ≠ 0x85 := by omega
  have h3 : c ≠ 0xA0 := by omega
  simp [h1, h2, h3]

theorem firstInfo_spec (b sz lo hi : Nat) (h : firstInfo b = some (sz, lo, hi)) :
    0xC2 ≤ b ∧ 2 ≤ sz ∧ sz ≤ 4 ∧ 0x80 ≤ lo ∧ hi ≤ 0xBF := by
  unfold firstInfo at h
  split_ifs at h <;> simp only [Option.some.injEq, Prod.mk.injEq] at h <;>
    (obtain ⟨rfl, rfl, rfl⟩ := h; omega)

theorem decodeRune_ascii (b : Nat) (t : GoString) (h : b < 0x80) :
    decodeRune (b :: t) = (b, 1) := by
  simp [decodeRune, RuneSelf, h]

theorem decodeRune_single (b : Nat) (h : 0x80 ≤ b) : decodeRune [b] = (RuneError, 1) := by
  have hb : ¬ b < 0x80 := by omega
  unfold decodeRune
  simp only [RuneSelf, hb, if_false]
  cases hfi : firstInfo b with
  | none => rfl
  | some v =>
    obtain ⟨sz, lo, hi⟩ := v
    simp

theorem decodeRune_width (s : GoString) (h : s ≠ []) :
    1 ≤ (decodeRune s).2 ∧ (decodeRune s).2 ≤ s.length := by
  rcases s with _ | ⟨s0, t⟩
  · exact absurd rfl h
  simp only [decodeRune]
  repeat' split
  all_goals simp

theorem decodeRune_head_notCont (b : Nat) (t : GoString)
    (h : (decodeRune (b :: t)).1 ≠ RuneError) : notCont b = true := by
  by_cases hb : b < 0x80
  · simp [notCont, hb]
  · simp only [decodeRune, RuneSelf, hb, if_false] at h
    cases hfi : firstInfo b with
    | none => simp [hfi] at h
    | some v =>
      obtain ⟨sz, lo, hi⟩ := v
      have := firstInfo_spec b sz lo hi hfi
      have h2 : 0xBF < b := by omega
      simp [notCont, h2]

theorem decodeRune_append_valid (p q : GoString) (h : (decodeRune p).1 ≠ RuneError) :
    decodeRune (p ++ q) = decodeRune p := by
  rcases p with _ | ⟨s0, t⟩
  · simp [decodeRune] at h
  simp only [List.cons_append, decodeRune] at h ⊢
  by_cases h0 : s0 < RuneSelf
  · simp [h0]
  simp only [h0, if_false] at h ⊢
  cases hfi : firstInfo s0 with
  | none => simp [hfi] at h
  | some v =>
    obtain ⟨sz, lo, hi⟩ := v
    have hsz := firstInfo_spec s0 sz lo hi hfi
    simp only [hfi] at h ⊢
    by_cases hl : t.length + 1 < sz
    · simp [hl] at h
    have hl2 : ¬ (t ++ q).length + 1 < sz := by simp only [List.length_append]; omega
    simp only [hl, hl2, if_false] at h ⊢
    rcases t with _ | ⟨s1, t1⟩
    · simp at h
    simp only [List.cons_append] at h ⊢
    by_cases h1 : s1 < lo ∨ hi < s1
    · simp [h1] at h
    simp only [h1, if_false] at h ⊢
    by_cases hs2 : sz ≤ 2
    · simp [hs2]
    simp only [hs2, if_false] at h ⊢
    rcases t1 with _ | ⟨s2, t2⟩
    · simp at h
    simp only [List.cons_append] at h ⊢
    by_cases h2 : notCont s2 = true
    · simp [h2] at h
    simp only [h2, if_false] at h ⊢
    by_cases hs3 : sz ≤ 3
    · simp [hs3]
    simp only [hs3, if_false] at h ⊢
    rcases t2 with _ | ⟨s3, t3⟩
    · simp at h
    simp only [List.cons_append] at h ⊢

theorem decodeRune_append_full (p q : GoString) (hp : p ≠ [])
    (h : (decodeRune p).2 = p.length)
    (hq : ∀ b t, q = b :: t → notCont b = true) :
    decodeRune (p ++ q) = decodeRune p := by
  rcases p with _ | ⟨s0, t⟩
  · exact absurd rfl hp
  by_cases h0 : s0 < RuneSelf
  · simp [decodeRune, h0]
  rcases t with _ | ⟨s1, t1⟩
  · have hge : 0x80 ≤ s0 := by simp only [RuneSelf] at h0; omega
    rw [decodeRune_single s0 hge]
    rcases q with _ | ⟨b, t'⟩
    · simpa using decodeRune_single s0 hge
    have hb := hq b t' rfl
    simp only [List.cons_append, List.nil_append, decodeRune, h0, if_false]
    cases hfi : firstInfo s0 with
    | none => rfl
    | some v =>
      obtain ⟨sz, lo, hi⟩ := v
      have hsz := firstInfo_spec s0 sz lo hi hfi
      have hbad : b < lo ∨ hi < b := by
        simp only [notCont, Bool.or_eq_true, decide_eq_true_eq] at hb
        omega
      simp only [hbad, if_true]
      split_ifs <;> rfl
  simp only [List.cons_append, decodeRune, h0, if_false] at h ⊢
  cases hfi : firstInfo s0 with
  | none => simp [hfi] at h
  | some v =>
    obtain ⟨sz, lo, hi⟩ := v
    have hsz := firstInfo_spec s0 sz lo hi hfi
    simp only [hfi] at h ⊢
    simp only [List.length_cons, List.length_append] at h ⊢
    by_cases hl : t1.length + 1 + 1 < sz
    · simp [hl] at h
    have hl2 : ¬ t1.length + q.length + 1 + 1 < sz := by omega
    simp only [hl, hl2, if_false] at h ⊢
    by_cases h1 : s1 < lo ∨ hi < s1
    · simp [h1] at h
    simp only [h1, if_false] at h ⊢
    by_cases hs2 : sz ≤ 2
    · simp [hs2]
    simp only [hs2, if_false] at h ⊢
    rcases t1 with _ | ⟨s2, t2⟩
    · simp at h
    simp only [List.cons_append] at h ⊢
    by_cases h2 : notCont s2 = true
    · simp [h2] at h
    simp only [h2, if_false] at h ⊢
    by_cases hs3 : sz ≤ 3
    · simp [hs3]
    simp only [hs3, if_false] at h ⊢
    rcases t2 with _ | ⟨s3, t3⟩
    · simp at h
    simp only [List.cons_append] at h ⊢

theorem scanBack_le (s : GoString) (lim : Nat) : ∀ fuel p, scanBack s lim fuel p ≤ p := by
  intro fuel
  induction fuel with
  | zero => intro p; simp [scanBack]
  | succ fuel ih =>
    intro p
    unfold scanBack
    split_ifs
    · exact le_refl p
    · exact le_trans (ih (p - 1)) (Nat.sub_le p 1)
    · exact le_refl p

theorem drop_length_pred (s : GoString) (h : s ≠ []) :
    s.drop (s.length - 1) = [s.getD (s.length - 1) 0] := by
  have hpos : 0 < s.length := List.length_pos.mpr h
  have hlt : s.length - 1 < s.length := by omega
  rw [List.drop_eq_getElem_cons hlt, List.getD_eq_getElem _ _ hlt]
  have : s.length - 1 + 1 = s.length := by omega
  rw [this, List.drop_length]

theorem decodeLastRune_ascii (s : GoString) (h : s ≠ [])
    (hr : s.getD (s.length - 1) 0 < 0x80) :
    decodeLastRune s = (s.getD (s.length - 1) 0, 1) := by
  have hpos : 0 < s.length := List.length_pos.mpr h
  have hne : s.length ≠ 0 := by omega
  simp only [decodeLastRune, hne, RuneSelf, hr, if_true, if_false]

theorem decodeLastRune_spec (s : GoString) (h : s ≠ []) :
    1 ≤ (decodeLastRune s).2 ∧ (decodeLastRune s).2 ≤ s.length ∧
    decodeRune (s.drop (s.length - (decodeLastRune s).2)) = decodeLastRune s := by
  have hpos : 0 < s.length := List.length_pos.mpr h
  have hne : s.length ≠ 0 := by omega
  by_cases hr : s.getD (s.length - 1) 0 < 0x80
  · rw [decodeLastRune_ascii s h hr]
    refine ⟨le_refl 1, hpos, ?_⟩
    simp only
    rw [drop_length_pred s h]
    exact decodeRune_ascii _ _ hr
  · have hge : 0x80 ≤ s.getD (s.length - 1) 0 := by omega
    have herr : decodeRune (s.drop (s.length - 1)) = (RuneError, 1) := by
      rw [drop_length_pred s h]
      exact decodeRune_single _ hge
    simp only [decodeLastRune, hne, RuneSelf, hr, if_false]
    split_ifs with hst
    · exact ⟨le_refl 1, hpos, herr⟩
    · have hst2 : scanBack s (s.length - 4) 4 (s.length - 1) - 1 +
          (decodeRune (List.drop (scanBack s (s.length - 4) 4 (s.length - 1) - 1) s)).2 =
          s.length := by
        by_contra hcon
        exact hst hcon
      have hsb := scanBack_le s (s.length - 4) 4 (s.length - 1)
      have hdne : List.drop (scanBack s (s.length - 4) 4 (s.length - 1) - 1) s ≠ [] := by
        intro hnil
        have := List.drop_eq_nil_iff.mp hnil
        omega
      have hw := decodeRune_width _ hdne
      refine ⟨hw.1, by omega, ?_⟩
      congr 2
      omega

theorem lastIndexFuncAux_spec (s : GoString) : ∀ (fuel i : Nat), i ≤ s.length →
    (i = s.length ∨ notCont (s.getD i 0) = true) →
    ∀ j, lastIndexFuncAux s IsSpace false fuel i = some j →
    ∃ k, 1 ≤ k ∧ k ≤ s.length ∧ IsSpace (decodeLastRune (s.take k)).1 = false ∧
      j = k - (decodeLastRune (s.take k)).2 ∧
      (k = s.length ∨ notCont (s.getD k 0) = true) := by
  intro fuel
  induction fuel with
  | zero => intro i _ _ j h; simp [lastIndexFuncAux] at h
  | succ fuel ih =>
    intro i hi hinv j h
    unfold lastIndexFuncAux at h
    by_cases hi0 : i = 0
    · simp [hi0] at h
    simp only [hi0, if_false] at h
    by_cases hsp : IsSpace (decodeLastRune (s.take i)).1 = false
    · simp only [hsp, if_true, Option.some.injEq] at h
      exact ⟨i, by omega, hi, hsp, h.symm, hinv⟩
    · simp only [hsp, if_false] at h
      have hlen : (s.take i).length = i := by simp [List.length_take, hi]
      have hne : s.take i ≠ [] := by
        intro hnil
        rw [hnil] at hlen
        simp at hlen
        omega
      obtain ⟨hw1, hw2, hdec⟩ := decodeLastRune_spec (s.take i) hne
      rw [hlen] at hw2 hdec
      have hlt : i - (decodeLastRune (s.take i)).2 < (s.take i).length := by omega
      rw [List.drop_eq_getElem_cons hlt] at hdec
      have hnerr : (decodeLastRune (s.take i)).1 ≠ RuneError := by
        intro he
        rw [he, IsSpace_RuneError] at hsp
        exact hsp rfl
      have hhead := decodeRune_head_notCont _ _ (by rw [hdec]; exact hnerr)
      have hget : (s.take i)[i - (decodeLastRune (s.take i)).2] =
          s.getD (i - (decodeLastRune (s.take i)).2) 0 := by
        rw [List.getElem_take]
        rw [List.getD_eq_getElem]
      rw [hget] at hhead
      exact ih (i - (decodeLastRune (s.take i)).2) (by omega) (Or.inr hhead) j h

theorem trimRight_core (s : GoString) (k : Nat) (hk1 : 1 ≤ k) (hk2 : k ≤ s.length)
    (hinv : k = s.length ∨ notCont (s.getD k 0) = true) :
    (if RuneSelf ≤ s.getD (k - (decodeLastRune (s.take k)).2) 0
      then s.take (k - (decodeLastRune (s.take k)).2 +
        (decodeRune (s.drop (k - (decodeLastRune (s.take k)).2))).2)
      else s.take (k - (decodeLastRune (s.take k)).2 + 1)) = s.take k := by
  have hlen : (s.take k).length = k := by simp [List.length_take, hk2]
  have hne : s.take k ≠ [] := by
    intro hnil
    rw [hnil] at hlen
    simp at hlen
    omega
  obtain ⟨hw1, hw2, hdec⟩ := decodeLastRune_spec (s.take k) hne
  rw [hlen] at hw2 hdec
  generalize hd : decodeLastRune (s.take k) = d at hw1 hw2 hdec ⊢
  have hj : k - d.2 ≤ (s.take k).length := by omega
  have hsplit : s.drop (k - d.2) = (s.take k).drop (k - d.2) ++ s.drop k := by
    conv_lhs => rw [← List.take_append_drop k s]
    exact List.drop_append_of_le_length hj
  have hplen : ((s.take k).drop (k - d.2)).length = d.2 := by
    rw [List.length_drop, hlen]; omega
  have hpne : (s.take k).drop (k - d.2) ≠ [] := by
    intro hnil
    rw [hnil] at hplen
    simp at hplen
    omega
  have hq : ∀ b t, s.drop k = b :: t → notCont b = true := by
    intro b t hbt
    rcases hinv with hinv | hinv
    · rw [hinv, List.drop_length] at hbt
      exact absurd hbt (by simp)
    · have hklt : k < s.length := by
        by_contra hge
        have : s.drop k = [] := List.drop_eq_nil_iff.mpr (by omega)
        rw [this] at hbt
        exact absurd hbt (by simp)
      rw [List.drop_eq_getElem_cons hklt] at hbt
      rw [List.getD_eq_getElem _ _ hklt] at hinv
      have : s[k] = b := by injection hbt
      rw [← this]
      exact hinv
  have hext := decodeRune_append_full _ _ hpne (by rw [hdec, hplen]) hq
  rw [← hsplit, hdec] at hext
  have hjlt : k - d.2 < (s.take k).length := by omega
  have hjlt2 : k - d.2 < s.length := by omega
  split_ifs with hrs
  · rw [hext]
    congr 1
    omega
  · have hhead : s.getD (k - d.2) 0 < 0x80 := by
      simp only [RuneSelf] at hrs
      omega
    rw [List.drop_eq_getElem_cons hjlt, List.getElem_take,
      ← List.getD_eq_getElem _ 0 hjlt2, decodeRune_ascii _ _ hhead] at hdec
    have : d.2 = 1 := by rw [← hdec]
    congr 1
    omega

theorem TrimRightFunc_lastOK (s : GoString) : lastOK (TrimRightFunc s IsSpace) := by
  unfold TrimRightFunc lastIndexFunc
  cases h : lastIndexFuncAux s IsSpace false (s.length + 1) s.length with
  | none => left; simp
  | some j =>
    obtain ⟨k, hk1, hk2, hsp, hj, hinv⟩ :=
      lastIndexFuncAux_spec s (s.length + 1) s.length (le_refl _) (Or.inl rfl) j h
    simp only
    rw [hj, trimRight_core s k hk1 hk2 hinv]
    right
    exact hsp

theorem TrimRightFunc_fixed (s : GoString) (h : lastOK s) : TrimRightFunc s IsSpace = s := by
  rcases h with h | h
  · subst h
    simp [TrimRightFunc, lastIndexFunc, lastIndexFuncAux]
  · by_cases hs : s = []
    · subst hs
      simp [TrimRightFunc, lastIndexFunc, lastIndexFuncAux]
    have hpos : 0 < s.length := List.length_pos.mpr hs
    have hne : s.length ≠ 0 := by omega
    have hidx : lastIndexFunc s IsSpace false = some (s.length - (decodeLastRune s).2) := by
      unfold lastIndexFunc lastIndexFuncAux
      simp only [hne, if_false, List.take_length, h, if_true]
    unfold TrimRightFunc
    rw [hidx]
    simp only
    have hcore := trimRight_core s s.length hpos (le_refl _) (Or.inl rfl)
    rw [List.take_length] at hcore
    exact hcore

theorem indexFuncAux_spec : ∀ (fuel : Nat) (t : GoString) (off j : Nat),
    indexFuncAux IsSpace false fuel t off = some j →
    ∃ m, j = off + m ∧ t.drop m ≠ [] ∧ IsSpace (decodeRune (t.drop m)).1 = false := by
  intro fuel
  induction fuel with
  | zero => intro t off j h; simp [indexFuncAux] at h
  | succ fuel ih =>
    intro t off j h
    unfold indexFuncAux at h
    rcases t with _ | ⟨b, t'⟩
    · simp at h
    simp only at h
    by_cases hsp : IsSpace (decodeRune (b :: t')).1 = false
    · simp only [hsp, if_true, Option.some.injEq] at h
      exact ⟨0, by omega, by simp, by simpa using hsp⟩
    · simp only [hsp, if_false] at h
      obtain ⟨m, hm, hne, hsp2⟩ := ih _ _ _ h
      rw [List.drop_drop] at hne hsp2
      exact ⟨(decodeRune (b :: t')).2 + m, by omega, hne, hsp2⟩

theorem TrimLeftFunc_headOK (s : GoString) : headOK (TrimLeftFunc s IsSpace) := by
  unfold TrimLeftFunc indexFunc
  cases h : indexFuncAux IsSpace false (s.length + 1) s 0 with
  | none => left; rfl
  | some j =>
    obtain ⟨m, hm, _, hsp⟩ := indexFuncAux_spec _ _ _ _ h
    simp only [Nat.zero_add] at hm
    subst hm
    right
    exact hsp

theorem TrimLeftFunc_fixed (s : GoString) (h : headOK s) : TrimLeftFunc s IsSpace = s := by
  rcases s with _ | ⟨b, t⟩
  · simp [TrimLeftFunc, indexFunc, indexFuncAux]
  rcases h with h | h
  · exact absurd h (by simp)
  · simp [TrimLeftFunc, indexFunc, indexFuncAux, h]

theorem headOK_of_initial (s p : GoString) (h : headOK s) (hp : p <+: s) : headOK p := by
  by_cases hpn : p = []
  · left; exact hpn
  right
  obtain ⟨q, rfl⟩ := hp
  rcases h with h | h
  · simp at h
    exact absurd h.1 hpn
  by_contra hcon
  have hne : (decodeRune p).1 ≠ RuneError := by
    intro he
    rw [he, IsSpace_RuneError] at hcon
    exact hcon rfl
  rw [decodeRune_append_valid p q hne] at h
  exact hcon h

theorem TrimFunc_ok (s : GoString) :
    headOK (TrimFunc s IsSpace) ∧ lastOK (TrimFunc s IsSpace) :=
  ⟨headOK_of_initial _ _ (TrimLeftFunc_headOK s) (TrimRightFunc_initial _ _),
   TrimRightFunc_lastOK _⟩

theorem TrimFunc_fixed (s : GoString) (h1 : headOK s) (h2 : lastOK s) :
    TrimFunc s IsSpace = s := by
  unfold TrimFunc
  rw [TrimLeftFunc_fixed s h1, TrimRightFunc_fixed s h2]

theorem decodeLastRune_snoc_ascii (r : GoString) (c : Nat) (hc : c < 0x80) :
    decodeLastRune (r ++ [c]) = (c, 1) := by
  have h := decodeLastRune_ascii (r ++ [c]) (by simp) (by simp [hc])
  simpa using h

theorem trimSpaceStop_ok (r : GoString) (h : headOK r.reverse) :
    headOK (trimSpaceStop r) ∧ lastOK (trimSpaceStop r) := by
  induction r with
  | nil => exact ⟨Or.inl rfl, Or.inl rfl⟩
  | cons c rest ih =>
    unfold trimSpaceStop
    split_ifs with h1 h2
    · exact ⟨headOK_of_initial _ _ h (TrimRightFunc_initial _ _), TrimRightFunc_lastOK _⟩
    · exact ih (headOK_of_initial _ _ h (by simp))
    · refine ⟨h, Or.inr ?_⟩
      have hc : c < 0x80 := by simp only [RuneSelf] at h1; omega
      rw [List.reverse_cons, decodeLastRune_snoc_ascii _ _ hc]
      simp only
      rw [IsSpace_ascii c hc]
      simpa using h2

theorem trimSpaceStop_fixed (s : GoString) (h1 : headOK s) (h2 : lastOK s) :
    trimSpaceStop s.reverse = s := by
  rcases hr : s.reverse with _ | ⟨c, rest⟩
  · have : s = [] := by simpa using hr
    subst this
    rfl
  have hs : s = rest.reverse ++ [c] := by
    have := congrArg List.reverse hr
    simpa using this
  unfold trimSpaceStop
  split_ifs with h3 h4
  · rw [← hr, List.reverse_reverse]
    exact TrimRightFunc_fixed s h2
  · exfalso
    have hc : c < 0x80 := by simp only [RuneSelf] at h3; omega
    rcases h2 with h2 | h2
    · rw [hs] at h2
      simp at h2
    · rw [hs, decodeLastRune_snoc_ascii _ _ hc] at h2
      simp only at h2
      rw [IsSpace_ascii c hc, h4] at h2
      exact absurd h2 (by simp)
  · rw [← hr, List.reverse_reverse]

theorem TrimSpace_ok (s : GoString) : headOK (TrimSpace s) ∧ lastOK (TrimSpace s) := by
  induction s with
  | nil => exact ⟨Or.inl rfl, Or.inl rfl⟩
  | cons c rest ih =>
    unfold TrimSpace
    split_ifs with h1 h2
    · exact TrimFunc_ok _
    · exact ih
    · apply trimSpaceStop_ok
      rw [List.reverse_reverse]
      right
      have hc : c < 0x80 := by simp only [RuneSelf] at h1; omega
      rw [decodeRune_ascii c rest hc]
      simp only
      rw [IsSpace_ascii c hc]
      simpa using h2

theorem TrimSpace_fixed (s : GoString) (h1 : headOK s) (h2 : lastOK s) : TrimSpace s = s := by
  rcases s with _ | ⟨c, rest⟩
  · rfl
  unfold TrimSpace
  split_ifs with h3 h4
  · exact TrimFunc_fixed _ h1 h2
  · exfalso
    have hc : c < 0x80 := by simp only [RuneSelf] at h3; omega
    rcases h1 with h1 | h1
    · exact absurd h1 (by simp)
    · rw [decodeRune_ascii c rest hc] at h1
      simp only at h1
      rw [IsSpace_ascii c hc, h4] at h1
      exact absurd h1 (by simp)
  · exact trimSpaceStop_fixed _ h1 h2

theorem TrimSpace_idempotent (s : GoString) : TrimSpace (TrimSpace s) = TrimSpace s :=
  TrimSpace_fixed _ (TrimSpace_ok s).1 (TrimSpace_ok s).2

/-! ### The fuel of the rune loops is enough -/

theorem indexFuncAux_fuel (f : Nat → Bool) (truth : Bool) : ∀ (fuel1 fuel2 : Nat)
    (t : GoString) (off : Nat), t.length < fuel1 → t.length < fuel2 →
    indexFuncAux f truth fuel1 t off = indexFuncAux f truth fuel2 t off := by
  intro fuel1
  induction fuel1 with
  | zero => intro fuel2 t off h1; omega
  | succ fuel1 ih =>
    intro fuel2 t off h1 h2
    rcases fuel2 with _ | fuel2
    · omega
    rcases t with _ | ⟨b, t'⟩
    · simp [indexFuncAux]
    unfold indexFuncAux
    simp only
    split_ifs
    · rfl
    · have hw := decodeRune_width (b :: t') (by simp)
      have hlen : ((b :: t').drop (decodeRune (b :: t')).2).length < (b :: t').length := by
        rw [List.length_drop]
        have : 0 < (b :: t').length := by simp
        omega
      exact ih fuel2 _ _ (by omega) (by omega)

theorem lastIndexFuncAux_fuel (s : GoString) (f : Nat → Bool) (truth : Bool) :
    ∀ (fuel1 fuel2 i : Nat), i ≤ s.length → i < fuel1 → i < fuel2 →
    lastIndexFuncAux s f truth fuel1 i = lastIndexFuncAux s f truth fuel2 i := by
  intro fuel1
  induction fuel1 with
  | zero => intro fuel2 i _ h1; omega
  | succ fuel1 ih =>
    intro fuel2 i hi h1 h2
    rcases fuel2 with _ | fuel2
    · omega
    unfold lastIndexFuncAux
    by_cases hi0 : i = 0
    · simp [hi0]
    simp only [hi0, if_false]
    split_ifs
    · rfl
    · have hlen : (s.take i).length = i := by simp [List.length_take, hi]
      have hne : s.take i ≠ [] := by
        intro hnil
        rw [hnil] at hlen
        simp at hlen
        omega
      have hw := decodeLastRune_spec (s.take i) hne
      exact ih fuel2 _ (by omega) (by omega) (by omega)

theorem scanBack_fuel (s : GoString) (lim : Nat) : ∀ (fuel1 fuel2 p : Nat),
    p - lim < fuel1 → p - lim < fuel2 → scanBack s lim fuel1 p = scanBack s lim fuel2 p := by
  intro fuel1
  induction fuel1 with
  | zero => intro fuel2 p h1; omega
  | succ fuel1 ih =>
    intro fuel2 p h1 h2
    rcases fuel2 with _ | fuel2
    · omega
    unfold scanBack
    split_ifs
    · rfl
    · exact ih fuel2 _ (by omega) (by omega)
    · rfl

/-! ### CleanseFolderFileName without percent signs -/

theorem spaceOut_cases (c : Nat) :
    (c ∈ prohibited ∧ spaceOut c = 32) ∨ (c ∉ prohibited ∧ spaceOut c = c) := by
  unfold spaceOut
  by_cases h : c ∈ prohibited
  · left; exact ⟨h, by simp [h]⟩
  · right; exact ⟨h, by simp [h]⟩

theorem mem_map_spaceOut (s : GoString) (x : Nat) (h : x ∈ s.map spaceOut) :
    x ∉ prohibited ∧ (x = 32 ∨ x ∈ s) := by
  obtain ⟨c, hc, rfl⟩ := List.mem_map.mp h
  rcases spaceOut_cases c with ⟨_, h2⟩ | ⟨h1, h2⟩
  · rw [h2]; exact ⟨by decide, Or.inl rfl⟩
  · rw [h2]; exact ⟨h1, Or.inr hc⟩

theorem map_spaceOut_fixed (r : GoString) (h : ∀ x ∈ r, x ∉ prohibited) :
    r.map spaceOut = r := by
  induction r with
  | nil => rfl
  | cons c rest ih =>
    have hc : c ∉ prohibited := h c (by simp)
    have hr : ∀ x ∈ rest, x ∉ prohibited := fun x hx => h x (List.mem_cons_of_mem _ hx)
    simp [spaceOut, hc, ih hr]

theorem cleanse_eq_of_no_percent (name : GoString) (h : 37 ∉ name) :
    CleanseFolderFileName name = (TrimSpace (name.map spaceOut)).map plusToSpace := by
  have h1 : 37 ∉ TrimSpace (name.map spaceOut) := by
    intro hm
    rcases (mem_map_spaceOut name 37 (mem_of_mem_TrimSpace _ _ hm)).2 with h2 | h2
    · omega
    · exact h h2
  simp only [CleanseFolderFileName, replaceProhibited_eq_map, QueryUnescape_no_percent _ h1]

theorem cleanse_eq_of_no_percent_plus (name : GoString) (h : 37 ∉ name) (hp : 43 ∉ name) :
    CleanseFolderFileName name = TrimSpace (name.map spaceOut) := by
  have h1 : 43 ∉ TrimSpace (name.map spaceOut) := by
    intro hm
    rcases (mem_map_spaceOut name 43 (mem_of_mem_TrimSpace _ _ hm)).2 with h2 | h2
    · omega
    · exact hp h2
  rw [cleanse_eq_of_no_percent name h, map_plusToSpace_of_no_plus _ h1]

/-! ### Malformed escapes -/

theorem cleanse_empty_of_malformed_escape (name bad : GoString)
    (h : unescapeCheck (TrimSpace (replaceProhibited name)) = some bad) :
    CleanseFolderFileName name = [] := by
  simp [CleanseFolderFileName, QueryUnescape, h]

/-! ### Path lookup and occupied paths -/

theorem splitSep_length_le (s : GoString) : (splitSep s).length ≤ s.length + 1 := by
  induction s with
  | nil => simp [splitSep]
  | cons c rest ih =>
    unfold splitSep
    split_ifs
    · simp only [List.length_cons]; omega
    · split
      · simp
      · rename_i h t heq
        rw [heq] at ih
        simp only [List.length_cons] at ih ⊢
        omega

theorem resolveAux_fuel (fs : FS) (follow : Bool) : ∀ (fuel1 fuel2 links : Nat) (cur : Loc)
    (rest : List GoString),
    rest.length + links * (PATH_MAX + 1) < fuel1 →
    rest.length + links * (PATH_MAX + 1) < fuel2 →
    resolveAux fs follow fuel1 links cur rest = resolveAux fs follow fuel2 links cur rest := by
  intro fuel1
  induction fuel1 with
  | zero => intro fuel2 links cur rest h1; omega
  | succ fuel1 ih =>
    intro fuel2 links cur rest h1 h2
    rcases fuel2 with _ | fuel2
    · omega
    rcases rest with _ | ⟨c, rest⟩
    · simp [resolveAux]
    simp only [List.length_cons] at h1 h2
    unfold resolveAux
    by_cases hc1 : c = [] ∨ c = [46]
    · simp only [hc1, if_true]
      exact ih fuel2 links cur rest (by omega) (by omega)
    by_cases hc2 : c = [46, 46]
    · simp only [hc1, hc2, if_true, if_false]
      exact ih fuel2 links _ rest (by omega) (by omega)
    by_cases hc3 : NAME_MAX < c.length
    · simp only [hc1, hc2, hc3, if_true, if_false]
    simp only [hc1, hc2, hc3, if_false]
    cases fs.refuse (Request.search cur) with
    | some errno => rfl
    | none =>
      simp only
      cases nodeAt fs (cur ++ [c]) with
      | none => rfl
      | some n =>
        cases n with
        | file content => rfl
        | dir => exact ih fuel2 links _ rest (by omega) (by omega)
        | symlink t =>
          simp only
          by_cases h3 : rest = [] ∧ follow = false
          · simp only [h3, and_self, if_true]
          by_cases h4 : links = 0
          · simp only [h3, h4, if_true, if_false]
          by_cases h5 : t = []
          · simp only [h3, h4, h5, if_true, if_false]
          by_cases h6 : PATH_MAX ≤ t.length
          · simp only [h3, h4, h5, h6, if_true, if_false]
          simp only [h3, h4, h5, h6, if_false]
          have hl := splitSep_length_le t
          have hmul : links * (PATH_MAX + 1) =
              (links - 1) * (PATH_MAX + 1) + (PATH_MAX + 1) := by
            obtain ⟨k, rfl⟩ : ∃ k, links = k + 1 := ⟨links - 1, by omega⟩
            simp [Nat.succ_mul]
          apply ih fuel2 (links - 1)
          · simp only [List.length_append]; omega
          · simp only [List.length_append]; omega

/-- The fuel of `resolve` is never used up: any larger amount gives the same answer. -/
theorem resolve_fuel (fs : FS) (follow : Bool) (path : GoString) (fuel : Nat)
    (hp : path ≠ []) (hlen : path.length < PATH_MAX)
    (hfuel : (MAXSYMLINKS + 1) * (PATH_MAX + 1) ≤ fuel) :
    resolve fs follow path =
      resolveAux fs follow fuel MAXSYMLINKS (startOf fs.cwd path) (splitSep path) := by
  have hl := splitSep_length_le path
  have h2 : ¬ PATH_MAX ≤ path.length := by omega
  simp only [resolve, hp, h2, if_false]
  apply resolveAux_fuel
  · simp only [Nat.add_mul, Nat.one_mul]; omega
  · simp only [Nat.add_mul, Nat.one_mul] at hfuel; omega

theorem ensureDir_of_existing (MkdirAll : FS → GoString → Option GoError × FS) (fs : FS)
    (dir : GoString) (n : Node) (h : Stat fs dir = Except.ok n) :
    EnsureDir MkdirAll fs dir = (none, fs) := by
  simp [EnsureDir, h]

/-! ### The claims -/

/-- C2: in a filesystem whose directory `docs` holds `report.txt` and a
symbolic link `[v1]report.txt` to a missing file, the first candidate of
`AutoRename` on `docs/report.txt` is `docs/[v1]report.txt`; an entry exists
there, yet `Exists` reports it absent, so the loop stops at 1 and the rename,
which returns no error, replaces the link by the file. -/
theorem autoRename_replaces_dangling_link :
    candidate (lit ("docs/report.txt")) 1 = lit ("docs/[v1]report.txt") ∧
    candidate (lit ("docs/./old/../report.txt")) 12 = lit ("docs/[v12]report.txt") ∧
    Lstat fsDangling (lit ("docs/[v1]report.txt")) =
      Except.ok (Node.symlink (lit ("gone.txt"))) ∧
    Exists fsDangling (lit ("docs/[v1]report.txt")) = false ∧
    ∀ fuel : Nat,
      (AutoRename (fuel + 1) fsDangling (lit ("docs/report.txt"))).map
          (fun r => (r.1, r.2.node [lit ("docs"), lit ("[v1]report.txt")],
            r.2.node [lit ("docs"), lit ("report.txt")], r.2.node [lit ("docs")])) =
        some (none, some (Node.file [7]), none, some Node.dir) := by
  refine ⟨by decide, by decide, by rfl, by decide, ?_⟩
  intro fuel
  rfl

/-- C4: on the name `100% done`, whose replaced-and-trimmed form is the name
itself and is not validly percent-encoded, `CleanseFolderFileName` returns the
empty string: `url.QueryUnescape` gives the empty string with its error, and
the assignment stores it. -/
theorem cleanse_malformed_escape_is_empty :
    TrimSpace (replaceProhibited (lit ("100% done"))) = lit ("100% done") ∧
    (QueryUnescape (lit ("100% done"))).2 = some (GoError.escapeError (lit ("% d"))) ∧
    CleanseFolderFileName (lit ("100% done")) = [] := by
  decide

/-- C5: on the name `a%2Fb` the result of `CleanseFolderFileName` is `a/b`,
which contains the prohibited character `/`. -/
theorem cleanse_escaped_slash :
    CleanseFolderFileName (lit ("a%2Fb")) = lit ("a/b") ∧
    47 ∈ CleanseFolderFileName (lit ("a%2Fb")) := by
  decide

/-- C7 as stated fails: the result on `CS1010: Intro/Notes?.pdf` is not the
string with single spaces. -/
theorem cleanse_example_not_single_spaced :
    CleanseFolderFileName (lit ("CS1010: Intro/Notes?.pdf")) ≠
      lit ("CS1010 Intro Notes .pdf") := by
  decide

/-- C7 amended: the result on `CS1010: Intro/Notes?.pdf` is
`CS1010  Intro Notes .pdf`, with two spaces after `CS1010` (the colon becomes
a space and the space after it stays); it contains no colon, slash or
question mark, and trimming leaves it unchanged. -/
theorem cleanse_example :
    CleanseFolderFileName (lit ("CS1010: Intro/Notes?.pdf")) = lit ("CS1010  Intro Notes .pdf") ∧
    58 ∉ CleanseFolderFileName (lit ("CS1010: Intro/Notes?.pdf")) ∧
    47 ∉ CleanseFolderFileName (lit ("CS1010: Intro/Notes?.pdf")) ∧
    63 ∉ CleanseFolderFileName (lit ("CS1010: Intro/Notes?.pdf")) ∧
    TrimSpace (CleanseFolderFileName (lit ("CS1010: Intro/Notes?.pdf"))) =
      CleanseFolderFileName (lit ("CS1010: Intro/Notes?.pdf")) := by
  decide

/-- C1 as stated fails: on `%2541` the first pass gives `%41` and the second
pass gives `A`. -/
theorem cleanse_not_idempotent :
    CleanseFolderFileName (CleanseFolderFileName (lit ("%2541"))) ≠
      CleanseFolderFileName (lit ("%2541")) := by
  decide

/-- C6 as stated fails: `a+b` has no percent sign, yet the result is `a b`
while the replaced-and-trimmed form is `a+b`. -/
theorem cleanse_plus_changed :
    37 ∉ lit ("a+b") ∧
    CleanseFolderFileName (lit ("a+b")) = lit ("a b") ∧
    CleanseFolderFileName (lit ("a+b")) ≠ TrimSpace ((lit ("a+b")).map spaceOut) := by
  decide

/-- C1 amended: for every string with neither a percent sign nor a plus
sign, applying `CleanseFolderFileName` twice gives the same result as applying
it once. -/
theorem cleanse_idempotent_of_no_percent_plus (s : GoString) (h : 37 ∉ s) (hp : 43 ∉ s) :
    CleanseFolderFileName (CleanseFolderFileName s) = CleanseFolderFileName s := by
  rw [cleanse_eq_of_no_percent_plus s h hp]
  have hmem : ∀ x ∈ TrimSpace (s.map spaceOut), x ∉ prohibited ∧ (x = 32 ∨ x ∈ s) :=
    fun x hx => mem_map_spaceOut s x (mem_of_mem_TrimSpace _ _ hx)
  have h1 : 37 ∉ TrimSpace (s.map spaceOut) := by
    intro hm
    rcases (hmem 37 hm).2 with h2 | h2
    · omega
    · exact h h2
  have h2 : 43 ∉ TrimSpace (s.map spaceOut) := by
    intro hm
    rcases (hmem 43 hm).2 with h2 | h2
    · omega
    · exact hp h2
  rw [cleanse_eq_of_no_percent_plus _ h1 h2,
    map_spaceOut_fixed _ (fun x hx => (hmem x hx).1), TrimSpace_idempotent]

/-- Witness of C1 amended: the name ` CS1010: Intro/Notes?.pdf ` has neither a
percent sign nor a plus sign, and a second pass changes nothing. -/
theorem cleanse_idempotent_of_no_percent_plus_witness :
    37 ∉ lit (" CS1010: Intro/Notes?.pdf ") ∧ 43 ∉ lit (" CS1010: Intro/Notes?.pdf ") ∧
    CleanseFolderFileName (CleanseFolderFileName (lit (" CS1010: Intro/Notes?.pdf "))) =
      CleanseFolderFileName (lit (" CS1010: Intro/Notes?.pdf ")) :=
  ⟨by decide, by decide,
   cleanse_idempotent_of_no_percent_plus (lit (" CS1010: Intro/Notes?.pdf "))
     (by decide) (by decide)⟩

/-- C6 amended: for every name without a percent sign, the result of
`CleanseFolderFileName` is the name with each of the nine prohibited
characters replaced by one space, then trimmed, then with each plus sign
turned into a space; when the name has no plus sign either, the result is the
replaced-and-trimmed form itself. -/
theorem cleanse_of_no_percent (name : GoString) (h : 37 ∉ name) :
    replaceProhibited name = name.map spaceOut ∧
    CleanseFolderFileName name = (TrimSpace (name.map spaceOut)).map plusToSpace ∧
    (43 ∉ name → CleanseFolderFileName name = TrimSpace (name.map spaceOut)) :=
  ⟨replaceProhibited_eq_map name, cleanse_eq_of_no_percent name h,
   fun hp => cleanse_eq_of_no_percent_plus name h hp⟩

/-- Witness of C6 amended: ` Week 1: a+b/c ` has no percent sign and becomes
`Week 1  a b c`; `a|b` has neither sign and becomes `a b`. -/
theorem cleanse_of_no_percent_witness :
    37 ∉ lit (" Week 1: a+b/c ") ∧
    CleanseFolderFileName (lit (" Week 1: a+b/c ")) =
      (TrimSpace ((lit (" Week 1: a+b/c ")).map spaceOut)).map plusToSpace ∧
    CleanseFolderFileName (lit (" Week 1: a+b/c ")) = lit ("Week 1  a b c") ∧
    CleanseFolderFileName (lit ("a|b")) = TrimSpace ((lit ("a|b")).map spaceOut) :=
  ⟨by decide, (cleanse_of_no_percent (lit (" Week 1: a+b/c ")) (by decide)).2.1, by decide,
   (cleanse_of_no_percent (lit ("a|b")) (by decide)).2.2 (by decide)⟩

/-- C8: with a regular file at `data`, `EnsureDir` on `data` returns no error
whatever `os.MkdirAll` would do, leaves the filesystem as it was, and `data`
is still a regular file, not a directory. -/
theorem ensureDir_on_regular_file (MkdirAll : FS → GoString → Option GoError × FS) :
    EnsureDir MkdirAll fsDataFile (lit ("data")) = (none, fsDataFile) ∧
    fsDataFile.node [lit ("data")] = some (Node.file [1, 2, 3]) ∧
    fsDataFile.node [lit ("data")] ≠ some Node.dir ∧
    Stat fsDataFile (lit ("data")) = Except.ok (Node.file [1, 2, 3]) := by
  have h : Stat fsDataFile (lit ("data")) = Except.ok (Node.file [1, 2, 3]) := rfl
  exact ⟨ensureDir_of_existing MkdirAll _ _ _ h, by decide, by decide, h⟩

/-- C9: when no file exists at `fileName` (`Exists` is false), `os.Open`
fails and `DecodeStructFromFile` returns its error, and the destination and
the filesystem are as before; the error is `ENOENT` when the lookup ends at a
place without an entry. -/
theorem decode_missing_file {V : Type} (gob : Gob V) (fs : FS) (fileName : GoString)
    (dest : V) (h : Exists fs fileName = false) :
    ∃ errno : String,
      Open fs fileName = Except.error (GoError.pathError "open" fileName errno) ∧
      DecodeStructFromFile gob fs fileName dest =
        (some (GoError.pathError "open" fileName errno), dest, fs) ∧
      ((∃ loc, resolve fs true fileName = Except.ok loc ∧ nodeAt fs loc = none) →
        errno = "ENOENT") := by
  unfold Exists Stat lookup at h
  cases hr : resolve fs true fileName with
  | error e =>
    refine ⟨e, ?_, ?_, ?_⟩
    · simp [Open, hr]
    · simp [DecodeStructFromFile, Open, hr]
    · rintro ⟨loc, hloc, _⟩
      simp at hloc
  | ok loc =>
    rw [hr] at h
    cases hn : nodeAt fs loc with
    | none =>
      refine ⟨"ENOENT", ?_, ?_, fun _ => rfl⟩
      · simp [Open, hr, hn]
      · simp [DecodeStructFromFile, Open, hr, hn]
    | some n =>
      simp [hn] at h

/-- Witness of C9: decoding from `missing.gob` in a filesystem that holds
only `data`. -/
theorem decode_missing_file_witness :
    Exists fsDataFile (lit ("missing.gob")) = false ∧
    (∃ errno : String,
      Open fsDataFile (lit ("missing.gob")) =
        Except.error (GoError.pathError "open" (lit ("missing.gob")) errno) ∧
      DecodeStructFromFile gobNat fsDataFile (lit ("missing.gob")) 7 =
        (some (GoError.pathError "open" (lit ("missing.gob")) errno), 7, fsDataFile) ∧
      ((∃ loc, resolve fsDataFile true (lit ("missing.gob")) = Except.ok loc ∧
          nodeAt fsDataFile loc = none) → errno = "ENOENT")) ∧
    DecodeStructFromFile gobNat fsDataFile (lit ("missing.gob")) 7 =
      (some (GoError.pathError "open" (lit ("missing.gob")) "ENOENT"), 7, fsDataFile) :=
  ⟨by decide, decode_missing_file gobNat fsDataFile (lit ("missing.gob")) 7 (by decide), rfl⟩

/-- C10: each of the six labels is stored as a key that `frequencyMap` maps
back to the label; each pair of `frequencyMap` has a label that the callback
stores as its key; and a label outside the six is stored as 1. -/
theorem frequency_labels_inverse :
    (∀ s ∈ frequencyOptions, frequencyMap.lookup (frequencySelectCallback s) = some s ∧
        mapIndex frequencyMap (frequencySelectCallback s) = s) ∧
    (frequencyMap.map Prod.fst = [1, 2, 4, 6, 12, -1]) ∧
    (∀ k : Int, ∀ v : GoString, frequencyMap.lookup k = some v →
        frequencySelectCallback (mapIndex frequencyMap k) = k) ∧
    (∀ s : GoString, s ∉ frequencyOptions → frequencySelectCallback s = 1) := by
  refine ⟨by decide, by decide, ?_, ?_⟩
  · intro k v h
    have hk : k = 1 ∨ k = 2 ∨ k = 4 ∨ k = 6 ∨ k = 12 ∨ k = -1 := by
      by_contra hne
      simp only [not_or] at hne
      obtain ⟨h1, h2, h4, h6, h12, hm⟩ := hne
      have e1 : (k == 1) = false := beq_eq_false_iff_ne.mpr h1
      have e2 : (k == 2) = false := beq_eq_false_iff_ne.mpr h2
      have e4 : (k == 4) = false := beq_eq_false_iff_ne.mpr h4
      have e6 : (k == 6) = false := beq_eq_false_iff_ne.mpr h6
      have e12 : (k == 12) = false := beq_eq_false_iff_ne.mpr h12
      have em : (k == -1) = false := beq_eq_false_iff_ne.mpr hm
      simp [frequencyMap, List.lookup, e1, e2, e4, e6, e12, em] at h
    rcases hk with rfl | rfl | rfl | rfl | rfl | rfl <;> decide
  · intro s hs
    simp only [frequencyOptions, List.mem_cons, List.mem_singleton, List.not_mem_nil,
      or_false, not_or] at hs
    obtain ⟨h0, h1, h2, h4, h6, h12⟩ := hs
    simp [frequencySelectCallback, h0, h1, h2, h4, h6, h12]

/-- Witness of C10: the label `weekly` is none of the six and is stored as 1;
the key 12 is mapped to a label that is stored as 12. -/
theorem frequency_labels_inverse_witness :
    lit ("weekly") ∉ frequencyOptions ∧ frequencySelectCallback (lit ("weekly")) = 1 ∧
    frequencySelectCallback (mapIndex frequencyMap 12) = 12 :=
  ⟨by decide, frequency_labels_inverse.2.2.2 (lit ("weekly")) (by decide),
   frequency_labels_inverse.2.2.1 12 FREQUENCY_TWELVE_HOUR (by decide)⟩

end Lominus
